import Mathlib

/-!
Shallow embedding of `livebench/gen_api_answer.py`: the per-question answer
builder `get_answer` (lines 33-178) and the dispatcher `run_questions`
(lines 181-261).  Files are modelled as the lists of records written so far;
the Python global `random` stream, `datetime.now`, `shortuuid.uuid`,
`time.time` and the model endpoint are modelled as an oracle consulted at a
counter that is threaded through the computation, so that every consultation
may return an arbitrary value.
-/

namespace LiveBench

/-- A benchmark question: `question_id`, the conversational `turns`, and the
optional `required_temperature` key (`none` when the key is absent). -/
structure Question where
  question_id : String
  turns : List String
  required_temperature : Option ℚ
deriving DecidableEq

/-- One message of a conversation: the flag is `true` for the assistant role
(`conv.roles[1]`) and `false` for the user role (`conv.roles[0]`); the content
is `none` for a pending assistant slot (line 127). -/
abbrev Conv := List (Bool × Option String)

/-- One entry of the `choices` list of an answer record (line 143). -/
structure Choice where
  index : Nat
  turns : List String

/-- The record appended to the answer file (lines 146-153). -/
structure AnswerRecord where
  question_id : String
  answer_id : String
  model_id : String
  choices : List Choice
  tstamp : ℚ
  total_output_tokens : Nat

/-- The record appended to the modification log (lines 165-174).  The source
field `random_prefix` is called `random_pfx` here. -/
structure ModRecord where
  question_id : String
  model_id : String
  original_turns : List String
  modified_turns : List String
  randomize_prompt_applied : Bool
  add_noise_applied : Bool
  random_pfx : String
  tstamp : ℚ

/-- External nondeterminism.  `hdrLetter`/`hdrDigit` are `random.choice` over
the fixed header alphabets (lines 75-77), `flip` is the per-letter
`random.random() < 0.01` test (line 108), `replU`/`replL` are `random.choice`
over `string.ascii_uppercase`/`string.ascii_lowercase` (lines 110-112), `dt`
is `datetime.now` (line 78), `uuid` is `shortuuid.uuid` (line 148), `clock` is
`time.time` (lines 151 and 173).  `invoke` is the model invocation of lines
129-137 (either `chat_completion_openai` or `model.api_function`; both are
external), indexed by the number of invocations performed so far; `.error`
models any exception raised inside the invoker. -/
structure Oracle where
  hdrLetter : Nat → Fin 8
  hdrDigit : Nat → Fin 8
  flip : Nat → Bool
  replU : Nat → Fin 26
  replL : Nat → Fin 26
  dt : Nat → String
  uuid : Nat → String
  clock : Nat → ℚ
  invoke : Nat → Conv → Option ℚ → Nat → Except Unit (String × Nat)

/-- Ambient configuration of one run: the oracle, the conversation template
returned by `model.adapter.get_default_conv_template` (line 85),
`model.display_name`, `max_tokens`, the global `args.force_temperature` read
at line 65, and the deduplication pass `reorg_answer_file`.  `reorg` is
defined in `livebench/common.py`, which is not among the sources; only the
fact that `run_questions` calls it is modelled, so it is an abstract
transformation of the answer file. -/
structure Env where
  o : Oracle
  template : Conv
  modelId : String
  maxTokens : Nat
  argsForceTemperature : Option ℚ
  reorg : List AnswerRecord → List AnswerRecord

/-- The header alphabet `letters = 'abcdefgh'` of line 75. -/
def hdrLetters : List Char := "abcdefgh".toList

/-- The header alphabet `digits = '12345678'` of line 76. -/
def hdrDigits : List Char := "12345678".toList

/-- `random.choice(letters)`: the oracle draws an index, the result is an
element of the fixed alphabet. -/
def letterOf (i : Fin 8) : Char := hdrLetters.getD i.val 'a'

/-- `random.choice(digits)`. -/
def digitOf (i : Fin 8) : Char := hdrDigits.getD i.val '1'

/-- `random.choice(string.ascii_uppercase)` (line 110). -/
def upperOf (i : Fin 26) : Char := Char.ofNat ('A'.toNat + i.val)

/-- `random.choice(string.ascii_lowercase)` (line 112). -/
def lowerOf (i : Fin 26) : Char := Char.ofNat ('a'.toNat + i.val)

/-- The random header of lines 73-80: the name is built
letter-digit-letter-digit, then `"Hello {name}, {datetime}\n\n"` (the braces
here denote Python interpolation).  `k` is the oracle counter at entry; five
consultations are made. -/
def mkPfx (o : Oracle) (k : Nat) : String :=
  "Hello " ++ String.mk [letterOf (o.hdrLetter k), digitOf (o.hdrDigit (k+1)),
    letterOf (o.hdrLetter (k+2)), digitOf (o.hdrDigit (k+3))] ++ ", " ++ o.dt (k+4) ++ "\n\n"

/-- The char-by-char noise loop of lines 106-114.  Each alphabetic character
consults the oracle once (`random.random() < 0.01`); on a hit the replacement
letter of the same case is drawn next.  Non-alphabetic characters consult
nothing and pass through.  Returns the new characters and the advanced
counter. -/
def noiseChars (o : Oracle) : List Char → Nat → List Char × Nat
  | [], k => ([], k)
  | c :: cs, k =>
    if c.isAlpha then
      if o.flip k then
        let c2 := if c.isUpper then upperOf (o.replU (k+1)) else lowerOf (o.replL (k+1))
        let r := noiseChars o cs (k+2)
        (c2 :: r.1, r.2)
      else
        let r := noiseChars o cs (k+1)
        (c :: r.1, r.2)
    else
      let r := noiseChars o cs k
      (c :: r.1, r.2)

/-- Noise on a whole string. -/
def noiseStr (o : Oracle) (s : String) (k : Nat) : String × Nat :=
  let r := noiseChars o s.toList k
  (String.mk r.1, r.2)

/-- One model invocation performed by `get_answer`: which choice and turn it
served, the prompt text that was sent, the sampling temperature, and the
token count the invoker returned. -/
structure InvCall where
  choice : Nat
  turn : Nat
  prompt : String
  temperature : Option ℚ
  tok : Nat

/-- `conv.update_last_message(output)` (line 139). -/
def updateLast (conv : Conv) (out : String) : Conv :=
  match conv.getLast? with
  | none => conv
  | some m => conv.dropLast ++ [(m.1, some out)]

/-- Temperature resolution of lines 64-69.  Note that when the
`force_temperature` parameter is non-null the source reads the global
`args.force_temperature` (line 65), not the parameter. -/
def resolveTemp (env : Env) (q : Question) (fT : Option ℚ) : Option ℚ :=
  if fT.isSome then env.argsForceTemperature
  else if q.required_temperature.isSome then q.required_temperature
  else some 0

/-- The perturbation of one turn of the loop body (lines 96-119): returns the
prompt text to send (`modified_prompt`), the `modifications_applied` flag, and
the advanced oracle counter.  Randomization applies only at turn 0 (lines
100-102); noise, when enabled, is applied to the randomized text (lines
105-114) and counts as a modification only if at least one character changed
(lines 116-119). -/
def perturbTurn (o : Oracle) (rPr noise : Bool) (pfx : String) (j : Nat)
    (t : String) (rk : Nat) : String × Bool × Nat :=
  let m1 := if rPr && (j == 0) then pfx ++ t else t
  let a1 := rPr && (j == 0)
  let n1 := if noise then noiseStr o m1 rk else (m1, rk)
  if noise && (n1.1 != m1) then (n1.1, true, n1.2) else (m1, a1, n1.2)

/-- Result of the inner turn loop (lines 94-141) for one choice: `outs` is
`some` the outputs on success and `none` if a model invocation raised;
`modTurns` is the tracked `modified_question["turns"]` list; `rk`/`ik` are the
advanced oracle and invocation counters; `trace` lists the successful
invocations made. -/
structure TOut where
  outs : Option (List String)
  modTurns : List String
  total : Nat
  rk : Nat
  ik : Nat
  trace : List InvCall

/-- The turn loop of lines 94-141, one equation per turn.  `rem` holds the
remaining turn prompts, `j` the current turn index, `mts` the current
`modified_question["turns"]`, `conv` the conversation so far.  Randomization
is applied only at turn 0 (lines 100-102), then noise (lines 105-119); the
turn is stored into `mts` only when a modification was applied (lines
122-123); the prompt is appended to the conversation and the model invoked
(lines 126-137); on success the assistant slot is filled and the output and
token count recorded (lines 139-141). -/
def runTurns (o : Oracle) (temp : Option ℚ) (maxTok : Nat) (rPr noise : Bool)
    (pfx : String) (i : Nat) :
    List String → Nat → List String → Conv → Nat → Nat → TOut
  | [], _, mts, _, rk, ik => ⟨some [], mts, 0, rk, ik, []⟩
  | t :: rem, j, mts, conv, rk, ik =>
    let p := perturbTurn o rPr noise pfx j t rk
    let mts1 := if p.2.1 then mts.set j p.1 else mts
    let conv1 := conv ++ [(false, some p.1), (true, none)]
    match o.invoke ik conv1 temp maxTok with
    | .error _ => ⟨none, mts1, 0, p.2.2, ik + 1, []⟩
    | .ok (outTok : String × Nat) =>
      let r := runTurns o temp maxTok rPr noise pfx i rem (j+1) mts1
        (updateLast conv1 outTok.1) p.2.2 (ik+1)
      ⟨r.outs.map (outTok.1 :: ·), r.modTurns, outTok.2 + r.total, r.rk, r.ik,
        ⟨i, j, p.1, temp, outTok.2⟩ :: r.trace⟩

/-- Result of the choice loop (lines 82-143): `chs` is `some` the choices list
on success; `modQ` models the `modified_question` variable after the loop:
`none` means it was never bound (zero iterations), `some none` that it was
bound to Python `None` (no perturbation flag), `some (some l)` that it was
bound to a dict whose `turns` list is `l`. -/
structure COut where
  chs : Option (List Choice)
  modQ : Option (Option (List String))
  total : Nat
  rk : Nat
  ik : Nat
  trace : List InvCall

/-- The choice loop of lines 84-143.  Each iteration rebuilds the conversation
from the template and rebuilds `modified_question` from the question (lines
85-91), then runs the turn loop; a raised invocation aborts the whole loop. -/
def runChoices (o : Oracle) (temp : Option ℚ) (maxTok : Nat) (rPr noise : Bool)
    (pfx : String) (q : Question) (template : Conv) :
    Nat → Nat → Nat → Nat → COut
  | _, 0, rk, ik => ⟨some [], none, 0, rk, ik, []⟩
  | i, count + 1, rk, ik =>
    let t := runTurns o temp maxTok rPr noise pfx i q.turns 0 q.turns template rk ik
    let thisModQ : Option (List String) := if rPr || noise then some t.modTurns else none
    match t.outs with
    | none => ⟨none, some thisModQ, t.total, t.rk, t.ik, t.trace⟩
    | some os =>
      let r := runChoices o temp maxTok rPr noise pfx q template (i+1) count t.rk t.ik
      ⟨r.chs.map (⟨i, os⟩ :: ·), some (r.modQ.getD thisModQ), t.total + r.total,
        r.rk, r.ik, t.trace ++ r.trace⟩

/-- The inner-loop result of the LAST iteration of the choice loop: when the
loop runs choices `i, i+1, ..., i+k` from counters `(rk, ik)`, this is the
`TOut` of choice `i+k`, computed after the first `k` choices advanced the
counters. -/
def finalChoiceT (o : Oracle) (temp : Option ℚ) (maxTok : Nat) (rPr noise : Bool)
    (pfx : String) (q : Question) (template : Conv) :
    Nat → Nat → Nat → Nat → TOut
  | i, 0, rk, ik => runTurns o temp maxTok rPr noise pfx i q.turns 0 q.turns template rk ik
  | i, k + 1, rk, ik =>
    let t := runTurns o temp maxTok rPr noise pfx i q.turns 0 q.turns template rk ik
    finalChoiceT o temp maxTok rPr noise pfx q template (i+1) k t.rk t.ik

/-- Exceptions `get_answer` can raise: the temperature assertion of lines
60-62, a failure inside the model invoker, and the `NameError` on
`modified_question` at line 160 when `num_choices == 0` (the loop never bound
the variable; note the answer record has already been appended by then). -/
inductive GErr where
  | assertTemp
  | invoker
  | nameModQ
deriving DecidableEq

/-- The persistent state threaded through the pipeline: the answer file and
the modification log as lists of records written so far, plus the oracle and
invocation counters. -/
structure St where
  ansFile : List AnswerRecord
  modFile : List ModRecord
  rk : Nat
  ik : Nat

/-- Result of one `get_answer` call: the final state, the invocations this
call made, and the exception it raised, if any. -/
structure GOut where
  st : St
  trace : List InvCall
  err : Option GErr

/-- The choice-loop call made by `get_answer` after resolving the temperature
(lines 64-69) and generating the random header (lines 71-80): the header
consumes five oracle consultations when `randomize_prompt` is set. -/
def gaChoices (env : Env) (q : Question) (numChoices : Nat) (forceTemp : Option ℚ)
    (rPr noise : Bool) (st : St) : COut :=
  runChoices env.o (resolveTemp env q forceTemp) env.maxTokens rPr noise
    (if rPr then mkPfx env.o st.rk else "") q env.template 0 numChoices
    (if rPr then st.rk + 5 else st.rk) st.ik

/-- Shallow embedding of `get_answer` (lines 33-178).  The assertion of lines
60-62 fires iff a non-null `force_temperature` is supplied and the question
has a `required_temperature` key.  The random header is generated once,
before the choice loop (lines 71-80).  After the loop the answer record is
appended (lines 146-157); then, iff `modified_question` is bound and not
`None`, a modification record is appended (lines 159-178). -/
def getAnswer (env : Env) (q : Question) (numChoices : Nat) (forceTemp : Option ℚ)
    (rPr noise : Bool) (st : St) : GOut :=
  if forceTemp.isSome && q.required_temperature.isSome then ⟨st, [], some .assertTemp⟩
  else
    let pfx := if rPr then mkPfx env.o st.rk else ""
    let c := gaChoices env q numChoices forceTemp rPr noise st
    match c.chs with
    | none => ⟨⟨st.ansFile, st.modFile, c.rk, c.ik⟩, c.trace, some .invoker⟩
    | some chs =>
      let ans : AnswerRecord :=
        ⟨q.question_id, env.o.uuid c.rk, env.modelId, chs, env.o.clock (c.rk+1), c.total⟩
      match c.modQ with
      | none => ⟨⟨st.ansFile ++ [ans], st.modFile, c.rk + 2, c.ik⟩, c.trace, some .nameModQ⟩
      | some none => ⟨⟨st.ansFile ++ [ans], st.modFile, c.rk + 2, c.ik⟩, c.trace, none⟩
      | some (some mt) =>
        let mrec : ModRecord :=
          ⟨q.question_id, env.modelId, q.turns, mt, rPr, noise,
            (if rPr then pfx else ""), env.o.clock (c.rk + 2)⟩
        ⟨⟨st.ansFile ++ [ans], st.modFile ++ [mrec], c.rk + 3, c.ik⟩, c.trace, none⟩

/-- Does `old` match at the head of the list?  (Substring test used by Python
`str.replace` when scanning.) -/
def headMatch : List Char → List Char → Bool
  | [], _ => true
  | _ :: _, [] => false
  | a :: as, b :: bs => a == b && headMatch as bs

/-- Python `str.replace(old, new)` at the character level: scan left to right,
replacing each non-overlapping occurrence of `old` (here always nonempty) by
`new`.  `fuel` bounds the scan and is instantiated with the string length. -/
def pyReplaceAux (old new : List Char) : Nat → List Char → List Char
  | 0, s => s
  | _ + 1, [] => []
  | fuel + 1, c :: cs =>
    if headMatch old (c :: cs) then new ++ pyReplaceAux old new fuel ((c :: cs).drop old.length)
    else c :: pyReplaceAux old new fuel cs

/-- The characters of the pattern `".jsonl"`. -/
def jsonlChars : List Char := ".jsonl".toList

/-- The characters of the replacement `"_QUESTIONS.jsonlx"`. -/
def qxChars : List Char := "_QUESTIONS.jsonlx".toList

/-- The modification-log path computation of lines 162 and 211:
`answer_file.replace(".jsonl", "_QUESTIONS.jsonlx")`, on character lists. -/
def questionsFileL (ansFileName : List Char) : List Char :=
  pyReplaceAux jsonlChars qxChars ansFileName.length ansFileName

/-- Result of one processing loop of `run_questions`: final state, trace,
number of `get_answer` calls made, and the exception that surfaced, if any. -/
structure LoopOut where
  st : St
  trace : List InvCall
  calls : Nat
  err : Option GErr

/-- The sequential branch body (lines 220-233): process the questions in
input order; an exception aborts the loop and propagates. -/
def seqLoop (env : Env) (nCh : Nat) (fT : Option ℚ) (rPr noise : Bool) :
    List Question → St → LoopOut
  | [], st => ⟨st, [], 0, none⟩
  | q :: qs, st =>
    let g := getAnswer env q nCh fT rPr noise st
    match g.err with
    | some e => ⟨g.st, g.trace, 1, some e⟩
    | none =>
      let r := seqLoop env nCh fT rPr noise qs g.st
      ⟨r.st, g.trace ++ r.trace, 1 + r.calls, r.err⟩

/-- The thread-pool branch (lines 238-259), serialized in the order the pool
executes the tasks: every submitted task runs to completion even when a
sibling raised (the pool does not cancel), and the first raised error then
surfaces during result collection. -/
def parLoop (env : Env) (nCh : Nat) (fT : Option ℚ) (rPr noise : Bool) :
    List Question → St → LoopOut
  | [], st => ⟨st, [], 0, none⟩
  | q :: qs, st =>
    let g := getAnswer env q nCh fT rPr noise st
    let r := parLoop env nCh fT rPr noise qs g.st
    ⟨r.st, g.trace ++ r.trace, 1 + r.calls,
      match g.err with
      | some e => some e
      | none => r.err⟩

/-- Result of `run_questions`: final state, trace, number of `get_answer`
calls, number of `reorg_answer_file` calls, surfaced exception. -/
structure ROut where
  st : St
  trace : List InvCall
  builderCalls : Nat
  reorgCalls : Nat
  err : Option GErr

/-- Shallow embedding of `run_questions` (lines 181-261).  `sched` is the
order in which the thread pool serializes the question tasks when
`parallel != 1` (a permutation of `questions`); `resume` and `retryF` model
the globals `args.resume` and `args.retry_failures` read at line 216.  When
`randomize_prompt` is set and neither resume flag is, the modification log is
truncated before any work (lines 210-218).  The deduplication pass runs once,
after the loop, iff no exception surfaced and the question list is nonempty
(lines 234-235 and 260-261). -/
def runQuestions (env : Env) (parallel : Nat) (questions sched : List Question)
    (nCh : Nat) (fT : Option ℚ) (rPr noise resume retryF : Bool) (st : St) : ROut :=
  let st0 := if rPr && !resume && !retryF then ⟨st.ansFile, [], st.rk, st.ik⟩ else st
  let r := if parallel == 1 then seqLoop env nCh fT rPr noise questions st0
           else parLoop env nCh fT rPr noise sched st0
  if r.err = none ∧ 0 < questions.length then
    ⟨⟨env.reorg r.st.ansFile, r.st.modFile, r.st.rk, r.st.ik⟩, r.trace, r.calls, 1, r.err⟩
  else ⟨r.st, r.trace, r.calls, 0, r.err⟩

/-- How one character of a turn relates to its image under the noise pass of
lines 106-114: a non-alphabetic character is untouched; an alphabetic
character is either untouched or replaced by a letter of the same case. -/
def noiseRel (a b : Char) : Prop :=
  (¬ a.isAlpha → b = a)
  ∧ (a.isAlpha → b = a ∨ (a.isUpper = true ∧ b.isUpper = true)
      ∨ (a.isUpper = false ∧ b.isLower = true))

/-- Placeholder answer record used as a `getD` default in index statements. -/
def dfltAns : AnswerRecord := ⟨"", "", "", [], 0, 0⟩

/-- Placeholder question used as a `getD` default in index statements. -/
def dfltQ : Question := ⟨"", [], none⟩

/-- A deterministic oracle for concrete runs: header indices 0, the noise test
never fires, fixed timestamp and id text, and a model invoker that always
answers `"4"` with one output token. -/
def oStub : Oracle :=
  ⟨fun _ => 0, fun _ => 0, fun _ => false, fun _ => 0, fun _ => 0,
   fun _ => "2026-01-01 00:00:00", fun _ => "id0", fun _ => 0,
   fun _ _ _ _ => .ok ("4", 1)⟩

/-- Like `oStub` but the model invoker always raises. -/
def oFail : Oracle :=
  ⟨fun _ => 0, fun _ => 0, fun _ => false, fun _ => 0, fun _ => 0,
   fun _ => "2026-01-01 00:00:00", fun _ => "id0", fun _ => 0,
   fun _ _ _ _ => .error ()⟩

/-- A concrete environment around `oStub` with no global forced temperature. -/
def envStub : Env := ⟨oStub, [], "m", 4096, none, id⟩

/-- A concrete environment whose global `args.force_temperature` is `1`. -/
def envG : Env := ⟨oStub, [], "m", 4096, some 1, id⟩

/-- A concrete environment whose model invoker always raises. -/
def envFail : Env := ⟨oFail, [], "m", 4096, none, id⟩

/-- The one-turn question of the end-to-end scenario. -/
def qOne : Question := ⟨"q1", ["2+2?"], none⟩

/-- A question with one two-letter turn. -/
def qAb : Question := ⟨"qab", ["ab"], none⟩

/-- A question whose single turn has no alphabetic character. -/
def qNum : Question := ⟨"qn", ["123"], none⟩

/-- A question used in the truncation counterexample. -/
def qNine : Question := ⟨"q9", ["p"], none⟩

/-- The empty initial state. -/
def stE : St := ⟨[], [], 0, 0⟩

/-- A modification record present before a run. -/
def mrecOld : ModRecord := ⟨"old9", "m", [], [], true, false, "", 0⟩

/-- An initial state whose modification log already holds `mrecOld`. -/
def stNine : St := ⟨[], [mrecOld], 0, 0⟩

/-! ## Lemmas about the header alphabets and the noise pass -/

theorem upperOf_isUpper : ∀ i : Fin 26, (upperOf i).isUpper = true := by decide

theorem lowerOf_isLower : ∀ i : Fin 26, (lowerOf i).isLower = true := by decide

theorem letterOf_mem : ∀ i : Fin 8, letterOf i ∈ hdrLetters := by decide

theorem digitOf_mem : ∀ i : Fin 8, digitOf i ∈ hdrDigits := by decide

theorem noiseChars_rel (o : Oracle) :
    ∀ (cs : List Char) (k : Nat), List.Forall₂ noiseRel cs (noiseChars o cs k).1 := by
  intro cs
  induction cs with
  | nil => intro k; exact List.Forall₂.nil
  | cons c cs ih =>
    intro k
    by_cases ha : c.isAlpha
    · by_cases hf : o.flip k
      · by_cases hu : c.isUpper
        · simpa [noiseChars, ha, hf, hu] using
            List.Forall₂.cons
              ⟨fun hna => absurd ha hna,
               fun _ => Or.inr (Or.inl ⟨hu, upperOf_isUpper _⟩)⟩ (ih (k+2))
        · simpa [noiseChars, ha, hf, hu] using
            List.Forall₂.cons
              ⟨fun hna => absurd ha hna,
               fun _ => Or.inr (Or.inr ⟨by simpa using hu, lowerOf_isLower _⟩)⟩ (ih (k+2))
      · simpa [noiseChars, ha, hf] using
          List.Forall₂.cons ⟨fun _ => rfl, fun _ => Or.inl rfl⟩ (ih (k+1))
    · simpa [noiseChars, ha] using
        List.Forall₂.cons ⟨fun _ => rfl, fun _ => Or.inl rfl⟩ (ih k)

theorem noiseChars_len (o : Oracle) (cs : List Char) (k : Nat) :
    (noiseChars o cs k).1.length = cs.length :=
  ((noiseChars_rel o cs k).length_eq).symm

theorem noiseChars_noAlpha (o : Oracle) :
    ∀ (cs : List Char) (k : Nat), (∀ c ∈ cs, c.isAlpha = false) →
      noiseChars o cs k = (cs, k) := by
  intro cs
  induction cs with
  | nil => intro k _; rfl
  | cons c cs ih =>
    intro k h
    have hc : c.isAlpha = false := h c (List.mem_cons_self c cs)
    have ht : ∀ x ∈ cs, x.isAlpha = false := fun x hx => h x (List.mem_cons_of_mem c hx)
    simp [noiseChars, hc, ih k ht]

theorem noiseStr_noAlpha (o : Oracle) (s : String) (k : Nat)
    (h : ∀ c ∈ s.toList, c.isAlpha = false) : noiseStr o s k = (s, k) := by
  have h2 : noiseChars o s.data k = (s.data, k) := noiseChars_noAlpha o s.toList k h
  simp only [noiseStr, String.toList, h2]

/-! ## Lemmas about the turn loop -/

theorem getD_set_ne (l : List String) (i jz : Nat) (v d : String) (h : i ≠ jz) :
    (l.set i v).getD jz d = l.getD jz d := by
  simp [List.getD_eq_getElem?_getD, List.getElem?_set_ne h]

theorem runTurns_trace_entries (o : Oracle) (temp : Option ℚ) (maxTok : Nat)
    (rPr noise : Bool) (pfx : String) (i : Nat) :
    ∀ (rem : List String) (j : Nat) (mts : List String) (conv : Conv) (rk ik : Nat),
    ∀ e ∈ (runTurns o temp maxTok rPr noise pfx i rem j mts conv rk ik).trace,
      e.choice = i ∧ j ≤ e.turn ∧ e.turn < j + rem.length ∧ e.temperature = temp := by
  intro rem
  induction rem with
  | nil => intro j mts conv rk ik e he; simp [runTurns] at he
  | cons t rem ih =>
    intro j mts conv rk ik e he
    simp only [runTurns] at he
    split at he
    · simp at he
    · simp only [List.mem_cons] at he
      rcases he with rfl | he
      · exact ⟨rfl, Nat.le_refl _, by simp only [List.length_cons]; omega, rfl⟩
      · have h2 := ih (j+1) _ _ _ _ e he
        exact ⟨h2.1, by omega, by simp only [List.length_cons]; omega, h2.2.2.2⟩

theorem runTurns_total (o : Oracle) (temp : Option ℚ) (maxTok : Nat)
    (rPr noise : Bool) (pfx : String) (i : Nat) :
    ∀ (rem : List String) (j : Nat) (mts : List String) (conv : Conv) (rk ik : Nat),
    (runTurns o temp maxTok rPr noise pfx i rem j mts conv rk ik).total
      = ((runTurns o temp maxTok rPr noise pfx i rem j mts conv rk ik).trace.map InvCall.tok).sum := by
  intro rem
  induction rem with
  | nil => intro j mts conv rk ik; simp [runTurns]
  | cons t rem ih =>
    intro j mts conv rk ik
    simp only [runTurns]
    split
    · simp
    · simp [ih (j+1)]

theorem runTurns_ok_len (o : Oracle) (temp : Option ℚ) (maxTok : Nat)
    (rPr noise : Bool) (pfx : String) (i : Nat) :
    ∀ (rem : List String) (j : Nat) (mts : List String) (conv : Conv) (rk ik : Nat)
      (os : List String),
    (runTurns o temp maxTok rPr noise pfx i rem j mts conv rk ik).outs = some os →
    os.length = rem.length
    ∧ (runTurns o temp maxTok rPr noise pfx i rem j mts conv rk ik).trace.length = rem.length := by
  intro rem
  induction rem with
  | nil =>
    intro j mts conv rk ik os h
    simp only [runTurns, Option.some.injEq] at h
    subst h
    simp [runTurns]
  | cons t rem ih =>
    intro j mts conv rk ik os h
    simp only [runTurns] at h ⊢
    split at h
    · simp at h
    · simp only [Option.map_eq_some'] at h
      obtain ⟨os', hro, rfl⟩ := h
      have h2 := ih (j+1) _ _ _ _ os' hro
      constructor
      · simp only [List.length_cons, h2.1]
      · dsimp only
        rw [List.length_cons, List.length_cons, h2.2]

theorem perturbTurn_noNoise (o : Oracle) (rPr : Bool) (pfx : String) (j : Nat)
    (t : String) (rk : Nat) :
    perturbTurn o rPr false pfx j t rk
      = (if rPr && (j == 0) then pfx ++ t else t, rPr && (j == 0), rk) := by
  simp [perturbTurn]

theorem perturbTurn_noise_fst (o : Oracle) (rPr : Bool) (pfx : String) (j : Nat)
    (t : String) (rk : Nat) :
    (perturbTurn o rPr true pfx j t rk).1
      = (noiseStr o (if rPr && (j == 0) then pfx ++ t else t) rk).1 := by
  rcases hrj : (rPr && (j == 0)) with _ | _
  · by_cases hc : (noiseStr o t rk).1 = t
    · simp [perturbTurn, hrj, hc]
    · simp [perturbTurn, hrj, hc]
  · by_cases hc : (noiseStr o (pfx ++ t) rk).1 = pfx ++ t
    · simp [perturbTurn, hrj, hc]
    · simp [perturbTurn, hrj, hc]

theorem perturbTurn_noAlpha (o : Oracle) (pfx : String) (j : Nat) (t : String)
    (rk : Nat) (h : ∀ c ∈ t.toList, c.isAlpha = false) :
    perturbTurn o false true pfx j t rk = (t, false, rk) := by
  have hns := noiseStr_noAlpha o t rk h
  simp [perturbTurn, hns]

theorem runTurns_prompt_noNoise (o : Oracle) (temp : Option ℚ) (maxTok : Nat)
    (rPr : Bool) (pfx : String) (i : Nat) :
    ∀ (rem : List String) (j : Nat) (mts : List String) (conv : Conv) (rk ik : Nat),
    ∀ e ∈ (runTurns o temp maxTok rPr false pfx i rem j mts conv rk ik).trace,
      e.prompt = if rPr && (e.turn == 0) then pfx ++ rem.getD (e.turn - j) ""
                 else rem.getD (e.turn - j) "" := by
  intro rem
  induction rem with
  | nil => intro j mts conv rk ik e he; simp [runTurns] at he
  | cons t rem ih =>
    intro j mts conv rk ik e he
    simp only [runTurns] at he
    split at he
    · simp at he
    · simp only [List.mem_cons] at he
      rcases he with rfl | he
      · simp [perturbTurn_noNoise, Nat.sub_self]
      · have hb := runTurns_trace_entries o temp maxTok rPr false pfx i rem (j+1) _ _ _ _ e he
        have hle : j + 1 ≤ e.turn := hb.2.1
        have hj : e.turn - j = (e.turn - (j+1)) + 1 := by omega
        rw [hj, List.getD_cons_succ]
        exact ih (j+1) _ _ _ _ e he

theorem runTurns_prompt_noise (o : Oracle) (temp : Option ℚ) (maxTok : Nat)
    (rPr : Bool) (pfx : String) (i : Nat) :
    ∀ (rem : List String) (j : Nat) (mts : List String) (conv : Conv) (rk ik : Nat),
    ∀ e ∈ (runTurns o temp maxTok rPr true pfx i rem j mts conv rk ik).trace,
      ∃ k, e.prompt = (noiseStr o (if rPr && (e.turn == 0) then pfx ++ rem.getD (e.turn - j) ""
                       else rem.getD (e.turn - j) "") k).1 := by
  intro rem
  induction rem with
  | nil => intro j mts conv rk ik e he; simp [runTurns] at he
  | cons t rem ih =>
    intro j mts conv rk ik e he
    simp only [runTurns] at he
    split at he
    · simp at he
    · simp only [List.mem_cons] at he
      rcases he with rfl | he
      · refine ⟨rk, ?_⟩
        simp [perturbTurn_noise_fst, Nat.sub_self]
      · have hb := runTurns_trace_entries o temp maxTok rPr true pfx i rem (j+1) _ _ _ _ e he
        have hle : j + 1 ≤ e.turn := hb.2.1
        have hj : e.turn - j = (e.turn - (j+1)) + 1 := by omega
        rw [hj, List.getD_cons_succ]
        exact ih (j+1) _ _ _ _ e he

theorem runTurns_modTurns_outside (o : Oracle) (temp : Option ℚ) (maxTok : Nat)
    (rPr noise : Bool) (pfx : String) (i : Nat) :
    ∀ (rem : List String) (j : Nat) (mts : List String) (conv : Conv) (rk ik : Nat)
      (jz : Nat) (d : String), (jz < j ∨ j + rem.length ≤ jz) →
    (runTurns o temp maxTok rPr noise pfx i rem j mts conv rk ik).modTurns.getD jz d
      = mts.getD jz d := by
  intro rem
  induction rem with
  | nil => intro j mts conv rk ik jz d h; rfl
  | cons t rem ih =>
    intro j mts conv rk ik jz d h
    have hne : j ≠ jz := by
      simp only [List.length_cons] at h; omega
    simp only [runTurns]
    split
    · dsimp only
      split
      · exact getD_set_ne mts j jz _ d hne
      · rfl
    · dsimp only
      rw [ih (j+1) _ _ _ _ jz d (by simp only [List.length_cons] at h; omega)]
      split
      · exact getD_set_ne mts j jz _ d hne
      · rfl

theorem runTurns_modTurns_noAlpha (o : Oracle) (temp : Option ℚ) (maxTok : Nat)
    (pfx : String) (i : Nat) :
    ∀ (rem : List String) (j : Nat) (mts : List String) (conv : Conv) (rk ik : Nat)
      (jz : Nat) (d : String), j ≤ jz → jz < j + rem.length →
    (∀ c ∈ (rem.getD (jz - j) "").toList, c.isAlpha = false) →
    (runTurns o temp maxTok false true pfx i rem j mts conv rk ik).modTurns.getD jz d
      = mts.getD jz d := by
  intro rem
  induction rem with
  | nil => intro j mts conv rk ik jz d h1 h2 h3; simp only [List.length_nil] at h2; omega
  | cons t rem ih =>
    intro j mts conv rk ik jz d h1 h2 h3
    rcases Nat.eq_or_lt_of_le h1 with rfl | hlt
    · -- the turn at index `j` itself: its text has no alphabetic character,
      -- so the noise pass returns it unchanged and `mts` is not updated
      have h3' : ∀ c ∈ t.toList, c.isAlpha = false := by
        simpa [Nat.sub_self] using h3
      have hp := perturbTurn_noAlpha o pfx j t rk h3'
      simp only [runTurns, hp]
      split
      · rfl
      · dsimp only
        rw [runTurns_modTurns_outside o temp maxTok false true pfx i rem (j+1) _ _ _ _ j d
          (Or.inl (Nat.lt_succ_self j))]
        rfl
    · -- an index strictly beyond `j`: the update at `j` cannot touch it
      have hne : j ≠ jz := Nat.ne_of_lt hlt
      have h3' : ∀ c ∈ (rem.getD (jz - (j+1)) "").toList, c.isAlpha = false := by
        have hj : jz - j = (jz - (j+1)) + 1 := by omega
        rw [hj, List.getD_cons_succ] at h3
        exact h3
      simp only [runTurns]
      split
      · dsimp only
        split
        · exact getD_set_ne mts j jz _ d hne
        · rfl
      · dsimp only
        rw [ih (j+1) _ _ _ _ jz d hlt (by simp only [List.length_cons] at h2; omega) h3']
        split
        · exact getD_set_ne mts j jz _ d hne
        · rfl

/-! ## Lemmas about the choice loop -/

theorem runChoices_trace_temp (o : Oracle) (temp : Option ℚ) (maxTok : Nat)
    (rPr noise : Bool) (pfx : String) (q : Question) (template : Conv) :
    ∀ (count i rk ik : Nat),
    ∀ e ∈ (runChoices o temp maxTok rPr noise pfx q template i count rk ik).trace,
      e.temperature = temp := by
  intro count
  induction count with
  | zero => intro i rk ik e he; simp [runChoices] at he
  | succ count ih =>
    intro i rk ik e he
    simp only [runChoices] at he
    split at he
    · exact (runTurns_trace_entries o temp maxTok rPr noise pfx i q.turns 0 _ _ _ _ e he).2.2.2
    · dsimp only at he
      rw [List.mem_append] at he
      rcases he with he | he
      · exact (runTurns_trace_entries o temp maxTok rPr noise pfx i q.turns 0 _ _ _ _ e he).2.2.2
      · exact ih (i+1) _ _ e he

theorem runChoices_prompt_noNoise (o : Oracle) (temp : Option ℚ) (maxTok : Nat)
    (rPr : Bool) (pfx : String) (q : Question) (template : Conv) :
    ∀ (count i rk ik : Nat),
    ∀ e ∈ (runChoices o temp maxTok rPr false pfx q template i count rk ik).trace,
      e.prompt = if rPr && (e.turn == 0) then pfx ++ q.turns.getD e.turn ""
                 else q.turns.getD e.turn "" := by
  intro count
  induction count with
  | zero => intro i rk ik e he; simp [runChoices] at he
  | succ count ih =>
    intro i rk ik e he
    simp only [runChoices] at he
    split at he
    · have h2 := runTurns_prompt_noNoise o temp maxTok rPr pfx i q.turns 0 _ _ _ _ e he
      rw [Nat.sub_zero] at h2
      exact h2
    · dsimp only at he
      rw [List.mem_append] at he
      rcases he with he | he
      · have h2 := runTurns_prompt_noNoise o temp maxTok rPr pfx i q.turns 0 _ _ _ _ e he
        rw [Nat.sub_zero] at h2
        exact h2
      · exact ih (i+1) _ _ e he

theorem runChoices_prompt_noise (o : Oracle) (temp : Option ℚ) (maxTok : Nat)
    (rPr : Bool) (pfx : String) (q : Question) (template : Conv) :
    ∀ (count i rk ik : Nat),
    ∀ e ∈ (runChoices o temp maxTok rPr true pfx q template i count rk ik).trace,
      ∃ k, e.prompt = (noiseStr o (if rPr && (e.turn == 0) then pfx ++ q.turns.getD e.turn ""
                       else q.turns.getD e.turn "") k).1 := by
  intro count
  induction count with
  | zero => intro i rk ik e he; simp [runChoices] at he
  | succ count ih =>
    intro i rk ik e he
    simp only [runChoices] at he
    split at he
    · have h2 := runTurns_prompt_noise o temp maxTok rPr pfx i q.turns 0 _ _ _ _ e he
      rw [Nat.sub_zero] at h2
      exact h2
    · dsimp only at he
      rw [List.mem_append] at he
      rcases he with he | he
      · have h2 := runTurns_prompt_noise o temp maxTok rPr pfx i q.turns 0 _ _ _ _ e he
        rw [Nat.sub_zero] at h2
        exact h2
      · exact ih (i+1) _ _ e he

theorem runChoices_total (o : Oracle) (temp : Option ℚ) (maxTok : Nat)
    (rPr noise : Bool) (pfx : String) (q : Question) (template : Conv) :
    ∀ (count i rk ik : Nat),
    (runChoices o temp maxTok rPr noise pfx q template i count rk ik).total
      = ((runChoices o temp maxTok rPr noise pfx q template i count rk ik).trace.map
          InvCall.tok).sum := by
  intro count
  induction count with
  | zero => intro i rk ik; simp [runChoices]
  | succ count ih =>
    intro i rk ik
    simp only [runChoices]
    split
    · dsimp only
      exact runTurns_total o temp maxTok rPr noise pfx i q.turns 0 _ _ _ _
    · dsimp only
      rw [List.map_append, List.sum_append,
        runTurns_total o temp maxTok rPr noise pfx i q.turns 0 _ _ _ _, ih (i+1)]

theorem runChoices_chs (o : Oracle) (temp : Option ℚ) (maxTok : Nat)
    (rPr noise : Bool) (pfx : String) (q : Question) (template : Conv) :
    ∀ (count i rk ik : Nat) (l : List Choice),
    (runChoices o temp maxTok rPr noise pfx q template i count rk ik).chs = some l →
    l.length = count ∧ l.map Choice.index = List.range' i count
    ∧ ∀ c ∈ l, c.turns.length = q.turns.length := by
  intro count
  induction count with
  | zero =>
    intro i rk ik l h
    simp only [runChoices, Option.some.injEq] at h
    subst h
    simp
  | succ count ih =>
    intro i rk ik l h
    simp only [runChoices] at h
    split at h
    · simp at h
    · rename_i os heq
      dsimp only at h
      rw [Option.map_eq_some'] at h
      obtain ⟨l', hr, rfl⟩ := h
      have h2 := ih (i+1) _ _ l' hr
      have hlen := runTurns_ok_len o temp maxTok rPr noise pfx i q.turns 0 _ _ _ _ os heq
      refine ⟨by simp [h2.1], ?_, ?_⟩
      · rw [List.range'_succ]
        simp [h2.2.1]
      · intro c hc
        rcases List.mem_cons.mp hc with rfl | hc
        · exact hlen.1
        · exact h2.2.2 c hc

theorem runChoices_modQ (o : Oracle) (temp : Option ℚ) (maxTok : Nat)
    (rPr noise : Bool) (pfx : String) (q : Question) (template : Conv) :
    ∀ (count i rk ik : Nat) (l : List Choice),
    (runChoices o temp maxTok rPr noise pfx q template i (count+1) rk ik).chs = some l →
    (runChoices o temp maxTok rPr noise pfx q template i (count+1) rk ik).modQ
      = some (if rPr || noise then
          some (finalChoiceT o temp maxTok rPr noise pfx q template i count rk ik).modTurns
        else none) := by
  intro count
  induction count with
  | zero =>
    intro i rk ik l h
    rw [runChoices] at h ⊢
    split at h
    · simp at h
    · dsimp only
      simp only [runChoices, finalChoiceT, Option.getD_none]
  | succ count ih =>
    intro i rk ik l h
    rw [runChoices] at h ⊢
    split at h
    · simp at h
    · dsimp only at h ⊢
      rw [Option.map_eq_some'] at h
      obtain ⟨l', hr, rfl⟩ := h
      rw [ih (i+1) _ _ l' hr]
      simp only [Option.getD_some, finalChoiceT]

/-- After a successful run with at least one choice and `randomize_prompt=False`
and `add_noise=True`, the recorded `modified_turns` leaves every turn with no
alphabetic character untouched. -/
theorem finalChoiceT_modTurns_noAlpha (o : Oracle) (temp : Option ℚ) (maxTok : Nat)
    (pfx : String) (q : Question) (template : Conv) :
    ∀ (k i rk ik jz : Nat) (d : String),
    (∀ c ∈ (q.turns.getD jz "").toList, c.isAlpha = false) →
    (finalChoiceT o temp maxTok false true pfx q template i k rk ik).modTurns.getD jz d
      = q.turns.getD jz d := by
  intro k
  induction k with
  | zero =>
    intro i rk ik jz d h
    simp only [finalChoiceT]
    rcases Nat.lt_or_ge jz q.turns.length with hlt | hge
    · exact runTurns_modTurns_noAlpha o temp maxTok pfx i q.turns 0 q.turns template rk ik jz d
        (Nat.zero_le jz) (by omega) (by rw [Nat.sub_zero]; exact h)
    · exact runTurns_modTurns_outside o temp maxTok false true pfx i q.turns 0 q.turns template
        rk ik jz d (Or.inr (by omega))
  | succ k ih =>
    intro i rk ik jz d h
    simp only [finalChoiceT]
    exact ih (i+1) _ _ jz d h

/-! ## Lemmas about `get_answer` -/

theorem runChoices_modQ_noFlags (o : Oracle) (temp : Option ℚ) (maxTok : Nat)
    (pfx : String) (q : Question) (template : Conv) :
    ∀ (count i rk ik : Nat),
      (runChoices o temp maxTok false false pfx q template i count rk ik).modQ = none
      ∨ (runChoices o temp maxTok false false pfx q template i count rk ik).modQ = some none := by
  intro count
  induction count with
  | zero => intro i rk ik; left; rfl
  | succ count ih =>
    intro i rk ik
    simp only [runChoices]
    split
    · right; simp
    · right
      dsimp only
      rcases ih (i+1) ((runTurns o temp maxTok false false pfx i q.turns 0 q.turns template rk ik).rk)
          ((runTurns o temp maxTok false false pfx i q.turns 0 q.turns template rk ik).ik) with h | h
      · rw [h]; simp
      · rw [h]; simp

theorem getAnswer_modFile_append (env : Env) (q : Question) (n : Nat) (fT : Option ℚ)
    (rPr noise : Bool) (st : St) :
    ∃ tl, (getAnswer env q n fT rPr noise st).st.modFile = st.modFile ++ tl ∧ tl.length ≤ 1 := by
  simp only [getAnswer]
  split
  · exact ⟨[], by simp, by simp⟩
  · split
    · exact ⟨[], by simp, by simp⟩
    · split
      · exact ⟨[], by simp, by simp⟩
      · exact ⟨[], by simp, by simp⟩
      · exact ⟨[_], rfl, by simp⟩

theorem getAnswer_trace (env : Env) (q : Question) (n : Nat) (fT : Option ℚ)
    (rPr noise : Bool) (st : St) :
    (getAnswer env q n fT rPr noise st).trace = []
    ∨ (getAnswer env q n fT rPr noise st).trace
        = (gaChoices env q n fT rPr noise st).trace := by
  simp only [getAnswer]
  split
  · left; rfl
  · split
    · right; rfl
    · split
      · right; rfl
      · right; rfl
      · right; rfl

theorem getAnswer_ok_shape (env : Env) (q : Question) (n : Nat) (fT : Option ℚ)
    (rPr noise : Bool) (st : St)
    (h : (getAnswer env q n fT rPr noise st).err = none) :
    ∃ chs, (gaChoices env q n fT rPr noise st).chs = some chs
    ∧ (getAnswer env q n fT rPr noise st).st.ansFile
        = st.ansFile ++ [⟨q.question_id, env.o.uuid (gaChoices env q n fT rPr noise st).rk,
            env.modelId, chs, env.o.clock ((gaChoices env q n fT rPr noise st).rk + 1),
            (gaChoices env q n fT rPr noise st).total⟩]
    ∧ (getAnswer env q n fT rPr noise st).trace = (gaChoices env q n fT rPr noise st).trace := by
  by_cases hA : (fT.isSome && q.required_temperature.isSome) = true
  · exfalso
    simp [getAnswer, hA] at h
  · simp only [getAnswer] at h ⊢
    rw [if_neg hA] at h ⊢
    split at h
    · simp at h
    · rename_i chs heq
      rw [heq]
      split at h
      · simp at h
      · exact ⟨chs, rfl, rfl, rfl⟩
      · exact ⟨chs, rfl, rfl, rfl⟩

theorem runChoices_modQ_flag (o : Oracle) (temp : Option ℚ) (maxTok : Nat)
    (rPr noise : Bool) (pfx : String) (q : Question) (template : Conv)
    (hflag : (rPr || noise) = true) :
    ∀ (count i rk ik : Nat) (l : List Choice),
    (runChoices o temp maxTok rPr noise pfx q template i (count+1) rk ik).chs = some l →
    (runChoices o temp maxTok rPr noise pfx q template i (count+1) rk ik).modQ
      = some (some (finalChoiceT o temp maxTok rPr noise pfx q template i count rk ik).modTurns) := by
  intro count i rk ik l h
  rw [runChoices_modQ o temp maxTok rPr noise pfx q template count i rk ik l h, hflag]
  simp

/-! ## Claim theorems about `get_answer` -/

/-- C1 (counterexample): with `add_noise=True` and an oracle whose noise test
never fires, the perturbed text equals the original in every turn
(`modified_turns = original_turns = [["ab"]]`), yet a ModificationRecord IS
appended — refuting the claim that an invocation whose noise changed no
character emits no ModificationRecord. -/
theorem noise_no_change_still_records :
    (getAnswer envStub qAb 1 none false true stE).st.modFile.map ModRecord.modified_turns = [["ab"]]
    ∧ (getAnswer envStub qAb 1 none false true stE).st.modFile.map ModRecord.original_turns = [["ab"]]
    ∧ (getAnswer envStub qAb 1 none false true stE).st.modFile.length = 1
    ∧ (getAnswer envStub qAb 1 none false true stE).err = none := by
  exact ⟨rfl, rfl, rfl, rfl⟩

/-- C1 (amended): a ModificationRecord is appended to the modification log at
most once per (question, invocation); none is appended when neither
perturbation flag is set; and on a successful invocation one is appended
exactly when a perturbation flag is set — regardless of whether the perturbed
text differs from the original. -/
theorem mod_record_emission (env : Env) (q : Question) (n : Nat) (fT : Option ℚ)
    (rPr noise : Bool) (st : St) :
    (getAnswer env q n fT rPr noise st).st.modFile.length ≤ st.modFile.length + 1
    ∧ ((rPr || noise) = false → (getAnswer env q n fT rPr noise st).st.modFile = st.modFile)
    ∧ ((getAnswer env q n fT rPr noise st).err = none →
        (getAnswer env q n fT rPr noise st).st.modFile.length
          = st.modFile.length + (if (rPr || noise) = true then 1 else 0)) := by
  refine ⟨?_, ?_, ?_⟩
  · obtain ⟨tl, htl, hlen⟩ := getAnswer_modFile_append env q n fT rPr noise st
    rw [htl, List.length_append]
    omega
  · intro hf
    obtain ⟨hr, hn⟩ := Bool.or_eq_false_iff.mp hf
    subst hr hn
    simp only [getAnswer]
    split
    · rfl
    · split
      · rfl
      · rename_i chs heq
        split
        · rfl
        · rfl
        · rename_i mt heq2
          exfalso
          simp only [gaChoices] at heq2
          rcases runChoices_modQ_noFlags env.o (resolveTemp env q fT) env.maxTokens
              (if false = true then mkPfx env.o st.rk else "") q env.template n 0
              (if false = true then st.rk + 5 else st.rk) st.ik with h2 | h2
          · rw [h2] at heq2; exact Option.noConfusion heq2
          · rw [h2] at heq2; simp at heq2
  · intro herr
    cases n with
    | zero =>
      exfalso
      by_cases hA : (fT.isSome && q.required_temperature.isSome) = true
      · simp [getAnswer, hA] at herr
      · simp [getAnswer, gaChoices, runChoices, hA] at herr
    | succ k =>
      by_cases hA : (fT.isSome && q.required_temperature.isSome) = true
      · exfalso; simp [getAnswer, hA] at herr
      · simp only [getAnswer] at herr ⊢
        rw [if_neg hA] at herr ⊢
        split at herr
        · simp at herr
        · rename_i chs heq
          split at herr
          · simp at herr
          · rename_i heq2
            rcases hf : (rPr || noise) with _ | _
            · simp [hf]
            · exfalso
              simp only [gaChoices] at heq heq2
              rw [runChoices_modQ_flag env.o (resolveTemp env q fT) env.maxTokens rPr noise
                (if rPr = true then mkPfx env.o st.rk else "") q env.template hf k 0
                (if rPr = true then st.rk + 5 else st.rk) st.ik chs heq] at heq2
              simp at heq2
          · rename_i mt heq2
            rcases hf : (rPr || noise) with _ | _
            · exfalso
              obtain ⟨hr, hn⟩ := Bool.or_eq_false_iff.mp hf
              subst hr hn
              simp only [gaChoices] at heq2
              rcases runChoices_modQ_noFlags env.o (resolveTemp env q fT) env.maxTokens
                  (if false = true then mkPfx env.o st.rk else "") q env.template (k+1) 0
                  (if false = true then st.rk + 5 else st.rk) st.ik with h2 | h2
              · rw [h2] at heq2; exact Option.noConfusion heq2
              · rw [h2] at heq2; simp at heq2
            · simp [hf, List.length_append]

/-- C2 (code-bug evaluation): `get_answer` called with `force_temperature = 2`
while the CLI global `args.force_temperature` is `1` (and no
`required_temperature` on the question) invokes the model with temperature
`1`, not `2` — line 65 reads the global instead of the parameter, although
every call site in the repository happens to pass the same value for both. -/
theorem forced_temperature_uses_global :
    (getAnswer envG qOne 1 (some 2) false false stE).trace.map InvCall.temperature = [some 1]
    ∧ ((some (1:ℚ)) ≠ (some (2:ℚ)))
    ∧ (getAnswer envG qOne 1 (some 2) false false stE).err = none := by
  refine ⟨rfl, by norm_num, rfl⟩

/-- C3: on a successful invocation with `num_choices = n ≥ 1`, exactly one
AnswerRecord is appended; its `choices` has `n` entries indexed `0..n-1` in
order, each choice's `turns` has the question's turn count, and
`total_output_tokens` is the sum of the token counts over all invocations. -/
theorem answer_record_shape (env : Env) (q : Question) (n : Nat) (fT : Option ℚ)
    (rPr noise : Bool) (st : St) (hn : 1 ≤ n)
    (herr : (getAnswer env q n fT rPr noise st).err = none) :
    ∃ ans, (getAnswer env q n fT rPr noise st).st.ansFile = st.ansFile ++ [ans]
      ∧ ans.question_id = q.question_id
      ∧ ans.choices.length = n
      ∧ ans.choices.map Choice.index = List.range n
      ∧ (∀ c ∈ ans.choices, c.turns.length = q.turns.length)
      ∧ ans.total_output_tokens
          = ((getAnswer env q n fT rPr noise st).trace.map InvCall.tok).sum := by
  obtain ⟨chs, hchs, hans, htr⟩ := getAnswer_ok_shape env q n fT rPr noise st herr
  have hchs' := hchs
  simp only [gaChoices] at hchs'
  have h2 := runChoices_chs env.o (resolveTemp env q fT) env.maxTokens rPr noise
    (if rPr = true then mkPfx env.o st.rk else "") q env.template n 0
    (if rPr = true then st.rk + 5 else st.rk) st.ik chs hchs'
  refine ⟨_, hans, rfl, h2.1, ?_, h2.2.2, ?_⟩
  · rw [List.range_eq_range']
    exact h2.2.1
  · rw [htr]
    simp only [gaChoices]
    exact runChoices_total env.o (resolveTemp env q fT) env.maxTokens rPr noise
      (if rPr = true then mkPfx env.o st.rk else "") q env.template n 0
      (if rPr = true then st.rk + 5 else st.rk) st.ik

/-- C4: with `randomize_prompt=True` and `add_noise=False`, the random header
`"Hello " ++ name ++ ", " ++ timestamp ++ "\n\n"` (with `name` of shape
letter-digit-letter-digit drawn from the fixed alphabets) is generated once
from the state's counter, every invocation's turn-0 prompt is that same header
prepended to the question's turn 0, and every later turn is sent unchanged. -/
theorem random_header (env : Env) (q : Question) (n : Nat) (fT : Option ℚ) (st : St) :
    (∃ c1 c2 c3 c4, mkPfx env.o st.rk
        = "Hello " ++ String.mk [c1, c2, c3, c4] ++ ", " ++ env.o.dt (st.rk + 4) ++ "\n\n"
      ∧ c1 ∈ hdrLetters ∧ c2 ∈ hdrDigits ∧ c3 ∈ hdrLetters ∧ c4 ∈ hdrDigits)
    ∧ ∀ e ∈ (getAnswer env q n fT true false st).trace,
        (e.turn = 0 → e.prompt = mkPfx env.o st.rk ++ q.turns.getD 0 "")
        ∧ (e.turn ≠ 0 → e.prompt = q.turns.getD e.turn "") := by
  constructor
  · exact ⟨letterOf (env.o.hdrLetter st.rk), digitOf (env.o.hdrDigit (st.rk + 1)),
      letterOf (env.o.hdrLetter (st.rk + 2)), digitOf (env.o.hdrDigit (st.rk + 3)),
      rfl, letterOf_mem _, digitOf_mem _, letterOf_mem _, digitOf_mem _⟩
  · intro e he
    rcases getAnswer_trace env q n fT true false st with htr | htr
    · rw [htr] at he; simp at he
    · rw [htr] at he
      simp only [gaChoices] at he
      have h2 := runChoices_prompt_noNoise env.o (resolveTemp env q fT) env.maxTokens true
        (if true = true then mkPfx env.o st.rk else "") q env.template n 0
        (if true = true then st.rk + 5 else st.rk) st.ik e he
      constructor
      · intro h0
        rw [h0] at h2
        simpa using h2
      · intro h0
        have hb : (e.turn == 0) = false := by simp [h0]
        rw [hb] at h2
        simpa using h2

/-- C5: with `add_noise=True`, every prompt sent to the model is the noise
image of the (already randomized, when `randomize_prompt` is set) turn text;
the noise pass preserves length, leaves every non-alphabetic character
untouched, and replaces an alphabetic character only by a letter of the same
case; a string with no alphabetic character passes through unchanged with the
counter unmoved; and with `randomize_prompt=False`, a turn with no alphabetic
character is sent unchanged and its entry in any emitted ModificationRecord
equals the original turn (its modification flag stayed false). -/
theorem noise_mechanism (env : Env) (q : Question) (n : Nat) (fT : Option ℚ)
    (rPr : Bool) (st : St) :
    (∀ e ∈ (getAnswer env q n fT rPr true st).trace,
        ∃ k, e.prompt = (noiseStr env.o (if rPr && (e.turn == 0)
            then mkPfx env.o st.rk ++ q.turns.getD e.turn ""
            else q.turns.getD e.turn "") k).1)
    ∧ (∀ (cs : List Char) (k : Nat), List.Forall₂ noiseRel cs (noiseChars env.o cs k).1)
    ∧ (∀ (cs : List Char) (k : Nat), (∀ c ∈ cs, c.isAlpha = false) →
        noiseChars env.o cs k = (cs, k))
    ∧ (∀ e ∈ (getAnswer env q n fT false true st).trace,
        (∀ c ∈ (q.turns.getD e.turn "").toList, c.isAlpha = false) →
        e.prompt = q.turns.getD e.turn "")
    ∧ (∀ m ∈ (getAnswer env q n fT false true st).st.modFile.drop st.modFile.length,
        ∀ jz, (∀ c ∈ (q.turns.getD jz "").toList, c.isAlpha = false) →
          m.modified_turns.getD jz "" = q.turns.getD jz "") := by
  refine ⟨?_, fun cs k => noiseChars_rel env.o cs k,
    fun cs k h => noiseChars_noAlpha env.o cs k h, ?_, ?_⟩
  · intro e he
    rcases getAnswer_trace env q n fT rPr true st with htr | htr
    · rw [htr] at he; simp at he
    · rw [htr] at he
      simp only [gaChoices] at he
      obtain ⟨k, hk⟩ := runChoices_prompt_noise env.o (resolveTemp env q fT) env.maxTokens rPr
        (if rPr = true then mkPfx env.o st.rk else "") q env.template n 0
        (if rPr = true then st.rk + 5 else st.rk) st.ik e he
      refine ⟨k, ?_⟩
      cases rPr
      · simpa using hk
      · simpa using hk
  · intro e he h3
    rcases getAnswer_trace env q n fT false true st with htr | htr
    · rw [htr] at he; simp at he
    · rw [htr] at he
      simp only [gaChoices] at he
      obtain ⟨k, hk⟩ := runChoices_prompt_noise env.o (resolveTemp env q fT) env.maxTokens false
        (if false = true then mkPfx env.o st.rk else "") q env.template n 0
        (if false = true then st.rk + 5 else st.rk) st.ik e he
      simp only [Bool.false_and] at hk
      rw [if_neg (by simp)] at hk
      rw [noiseStr_noAlpha env.o (q.turns.getD e.turn "") k h3] at hk
      simpa using hk
  · intro m hm jz h3
    by_cases hA : (fT.isSome && q.required_temperature.isSome) = true
    · simp [getAnswer, hA, List.drop_length] at hm
    · simp only [getAnswer] at hm
      rw [if_neg hA] at hm
      split at hm
      · simp [List.drop_length] at hm
      · rename_i chs heq
        split at hm
        · simp [List.drop_length] at hm
        · simp [List.drop_length] at hm
        · rename_i mt heq2
          rw [List.drop_left] at hm
          simp only [List.mem_singleton] at hm
          subst hm
          cases n with
          | zero =>
            exfalso
            simp [gaChoices, runChoices] at heq2
          | succ k =>
            simp only [gaChoices] at heq heq2
            rw [runChoices_modQ_flag env.o (resolveTemp env q fT) env.maxTokens false true
              (if false = true then mkPfx env.o st.rk else "") q env.template rfl k 0
              (if false = true then st.rk + 5 else st.rk) st.ik chs heq] at heq2
            simp only [Option.some.injEq] at heq2
            subst heq2
            exact finalChoiceT_modTurns_noAlpha env.o (resolveTemp env q fT) env.maxTokens
              (if false = true then mkPfx env.o st.rk else "") q env.template k 0
              (if false = true then st.rk + 5 else st.rk) st.ik jz "" h3

/-- C6: if the model invoker raised (at any choice or turn), no AnswerRecord
line is written to the answer file by that invocation — and no
ModificationRecord either; the record is assembled in memory and the single
append happens only after all choices and turns completed. -/
theorem no_answer_on_invoker_failure (env : Env) (q : Question) (n : Nat) (fT : Option ℚ)
    (rPr noise : Bool) (st : St)
    (h : (getAnswer env q n fT rPr noise st).err = some .invoker) :
    (getAnswer env q n fT rPr noise st).st.ansFile = st.ansFile
    ∧ (getAnswer env q n fT rPr noise st).st.modFile = st.modFile := by
  by_cases hA : (fT.isSome && q.required_temperature.isSome) = true
  · simp only [getAnswer]
    rw [if_pos hA]
    exact ⟨rfl, rfl⟩
  · simp only [getAnswer] at h ⊢
    rw [if_neg hA] at h ⊢
    split at h
    · exact ⟨rfl, rfl⟩
    · rename_i chs heq
      split at h
      · simp at h
      · simp at h
      · simp at h

/-- C10: with a perturbation flag set and `num_choices = k+1`, the single
ModificationRecord written after the choice loop records the `modified_turns`
of the LAST choice iteration only: the tracking object is rebuilt each
iteration and the write uses the last iteration's value, its noise drawn from
the oracle counters as advanced by the earlier choices. -/
theorem mod_record_last_choice (env : Env) (q : Question) (k : Nat) (fT : Option ℚ)
    (rPr noise : Bool) (st : St) (hflag : (rPr || noise) = true)
    (herr : (getAnswer env q (k+1) fT rPr noise st).err = none) :
    (getAnswer env q (k+1) fT rPr noise st).st.modFile.map ModRecord.modified_turns
      = st.modFile.map ModRecord.modified_turns
        ++ [(finalChoiceT env.o (resolveTemp env q fT) env.maxTokens rPr noise
            (if rPr then mkPfx env.o st.rk else "") q env.template 0 k
            (if rPr then st.rk + 5 else st.rk) st.ik).modTurns] := by
  by_cases hA : (fT.isSome && q.required_temperature.isSome) = true
  · exfalso; simp [getAnswer, hA] at herr
  · simp only [getAnswer] at herr ⊢
    rw [if_neg hA] at herr ⊢
    split at herr
    · simp at herr
    · rename_i chs heq
      split at herr
      · simp at herr
      · rename_i heq2
        exfalso
        simp only [gaChoices] at heq heq2
        rw [runChoices_modQ_flag env.o (resolveTemp env q fT) env.maxTokens rPr noise
          (if rPr = true then mkPfx env.o st.rk else "") q env.template hflag k 0
          (if rPr = true then st.rk + 5 else st.rk) st.ik chs heq] at heq2
        simp at heq2
      · rename_i mt heq2
        simp only [gaChoices] at heq heq2
        rw [runChoices_modQ_flag env.o (resolveTemp env q fT) env.maxTokens rPr noise
          (if rPr = true then mkPfx env.o st.rk else "") q env.template hflag k 0
          (if rPr = true then st.rk + 5 else st.rk) st.ik chs heq] at heq2
        simp only [Option.some.injEq] at heq2
        subst heq2
        simp [List.map_append]

/-! ## Lemmas about the dispatcher and the log path -/

theorem seqLoop_ok (env : Env) (nCh : Nat) (fT : Option ℚ) (rPr noise : Bool) :
    ∀ (qs : List Question) (st : St),
    (seqLoop env nCh fT rPr noise qs st).err = none →
    (seqLoop env nCh fT rPr noise qs st).calls = qs.length
    ∧ ∃ nr : List AnswerRecord,
        (seqLoop env nCh fT rPr noise qs st).st.ansFile = st.ansFile ++ nr
        ∧ nr.map AnswerRecord.question_id = qs.map Question.question_id := by
  intro qs
  induction qs with
  | nil =>
    intro st h
    exact ⟨rfl, [], by simp [seqLoop], rfl⟩
  | cons q qs ih =>
    intro st h
    simp only [seqLoop] at h ⊢
    split at h
    · simp at h
    · rename_i herr0
      dsimp only at h ⊢
      obtain ⟨chs, hchs, hans, htr⟩ := getAnswer_ok_shape env q nCh fT rPr noise st herr0
      obtain ⟨hcalls, nr, hnr, hmap⟩ := ih _ h
      refine ⟨by simp only [hcalls, List.length_cons]; omega,
        (⟨q.question_id, env.o.uuid (gaChoices env q nCh fT rPr noise st).rk, env.modelId, chs,
          env.o.clock ((gaChoices env q nCh fT rPr noise st).rk + 1),
          (gaChoices env q nCh fT rPr noise st).total⟩ : AnswerRecord) :: nr, ?_, ?_⟩
      · rw [hnr, hans, List.append_assoc]
        rfl
      · simp [hmap]

theorem seqLoop_modFile (env : Env) (nCh : Nat) (fT : Option ℚ) (rPr noise : Bool) :
    ∀ (qs : List Question) (st : St),
    ∃ tl, (seqLoop env nCh fT rPr noise qs st).st.modFile = st.modFile ++ tl := by
  intro qs
  induction qs with
  | nil => intro st; exact ⟨[], by simp [seqLoop]⟩
  | cons q qs ih =>
    intro st
    simp only [seqLoop]
    split
    · exact (getAnswer_modFile_append env q nCh fT rPr noise st).imp fun tl h => h.1
    · obtain ⟨tl1, htl1, _⟩ := getAnswer_modFile_append env q nCh fT rPr noise st
      obtain ⟨tl2, htl2⟩ := ih ((getAnswer env q nCh fT rPr noise st).st)
      exact ⟨tl1 ++ tl2, by dsimp only; rw [htl2, htl1, List.append_assoc]⟩

theorem parLoop_calls (env : Env) (nCh : Nat) (fT : Option ℚ) (rPr noise : Bool) :
    ∀ (qs : List Question) (st : St),
    (parLoop env nCh fT rPr noise qs st).calls = qs.length := by
  intro qs
  induction qs with
  | nil => intro st; rfl
  | cons q qs ih =>
    intro st
    simp only [parLoop, List.length_cons]
    rw [ih ((getAnswer env q nCh fT rPr noise st).st)]
    omega

theorem parLoop_modFile (env : Env) (nCh : Nat) (fT : Option ℚ) (rPr noise : Bool) :
    ∀ (qs : List Question) (st : St),
    ∃ tl, (parLoop env nCh fT rPr noise qs st).st.modFile = st.modFile ++ tl := by
  intro qs
  induction qs with
  | nil => intro st; exact ⟨[], by simp [parLoop]⟩
  | cons q qs ih =>
    intro st
    obtain ⟨tl1, htl1, _⟩ := getAnswer_modFile_append env q nCh fT rPr noise st
    obtain ⟨tl2, htl2⟩ := ih ((getAnswer env q nCh fT rPr noise st).st)
    exact ⟨tl1 ++ tl2, by simp only [parLoop]; rw [htl2, htl1, List.append_assoc]⟩

theorem pyReplaceAux_nil_list (old new : List Char) :
    ∀ fuel, pyReplaceAux old new fuel [] = [] := by
  intro fuel
  cases fuel
  · rfl
  · rfl

theorem headMatch_append_self (l : List Char) : ∀ r, headMatch l (l ++ r) = true := by
  induction l with
  | nil => intro r; rfl
  | cons a as ih => intro r; simp [headMatch, ih]

theorem pyReplace_single_suffix (old new : List Char) (hold : old ≠ []) :
    ∀ s : List Char,
    (∀ i, i < s.length → headMatch old (List.drop i (s ++ old)) = false) →
    pyReplaceAux old new (s ++ old).length (s ++ old) = s ++ new := by
  intro s
  induction s with
  | nil =>
    intro _
    rcases old with _ | ⟨c, cs⟩
    · exact absurd rfl hold
    · have hm : headMatch (c :: cs) (c :: cs) = true := by
        have h2 := headMatch_append_self (c :: cs) []
        simpa using h2
      simp only [List.nil_append, List.length_cons]
      rw [pyReplaceAux, if_pos hm, List.drop_length, pyReplaceAux_nil_list, List.append_nil]
  | cons c s' ih =>
    intro h
    have h0 : headMatch old (c :: (s' ++ old)) = false := by
      have h2 := h 0 (by simp)
      simpa using h2
    simp only [List.cons_append, List.length_cons]
    rw [pyReplaceAux, if_neg (by rw [h0]; exact Bool.false_ne_true)]
    congr 1
    exact ih fun i hi => by
      have h2 := h (i+1) (by simpa using Nat.succ_lt_succ hi)
      simpa [List.drop_succ_cons] using h2

/-! ## Claim theorems about `run_questions` -/

/-- C7 (counterexample): `run_questions` on an EMPTY question list with
`randomize_prompt=True` and neither resume flag set truncates the modification
log — a previously recorded line disappears — so the empty run is not a no-op,
although it does invoke the builder zero times and skips the post-pass. -/
theorem empty_run_truncates :
    (runQuestions envStub 1 [] [] 2 none true false false false stNine).st.modFile = []
    ∧ stNine.modFile ≠ []
    ∧ (runQuestions envStub 1 [] [] 2 none true false false false stNine).builderCalls = 0
    ∧ (runQuestions envStub 1 [] [] 2 none true false false false stNine).reorgCalls = 0 := by
  refine ⟨rfl, by simp [stNine], rfl, rfl⟩

/-- C7 (amended): after `run_questions` processes all questions without an
exception, the deduplication post-pass runs exactly once when the question
list is nonempty, in both the sequential and the parallel branch, and is
skipped when it is empty; on an empty list the builder is invoked zero times
and the answer file is untouched, and the call is a complete no-op unless
`randomize_prompt` is set with neither resume flag (in which case the
modification log is truncated). -/
theorem dedup_pass (env : Env) (parallel : Nat) (questions sched : List Question)
    (nCh : Nat) (fT : Option ℚ) (rPr noise resume retryF : Bool) (st : St)
    (hperm : questions.Perm sched)
    (herr : (runQuestions env parallel questions sched nCh fT rPr noise resume retryF st).err
        = none) :
    (runQuestions env parallel questions sched nCh fT rPr noise resume retryF st).reorgCalls
        = (if questions = [] then 0 else 1)
    ∧ (questions = [] →
        (runQuestions env parallel questions sched nCh fT rPr noise resume retryF st).builderCalls
            = 0
        ∧ (runQuestions env parallel questions sched nCh fT rPr noise resume retryF st).st.ansFile
            = st.ansFile
        ∧ ((rPr && !resume && !retryF) = false →
            runQuestions env parallel questions sched nCh fT rPr noise resume retryF st
              = ⟨st, [], 0, 0, none⟩)) := by
  simp only [runQuestions] at herr ⊢
  set st0 := (if (rPr && !resume && !retryF) = true
      then (⟨st.ansFile, [], st.rk, st.ik⟩ : St) else st) with hst0
  set r := (if (parallel == 1) = true then seqLoop env nCh fT rPr noise questions st0
      else parLoop env nCh fT rPr noise sched st0) with hr
  by_cases hC : r.err = none ∧ 0 < questions.length
  · rw [if_pos hC] at herr ⊢
    refine ⟨?_, ?_⟩
    · have hne : questions ≠ [] := by
        intro hq
        rcases hC with ⟨_, hlen⟩
        rw [hq] at hlen
        simp at hlen
      rw [if_neg hne]
    · intro hq
      exfalso
      rcases hC with ⟨_, hlen⟩
      rw [hq] at hlen
      simp at hlen
  · rw [if_neg hC] at herr ⊢
    dsimp only at herr
    have hlen0 : questions.length = 0 := by
      by_contra hne
      exact hC ⟨herr, Nat.pos_of_ne_zero hne⟩
    have hq : questions = [] := List.length_eq_zero.mp hlen0
    subst hq
    have hsched : sched = [] := (hperm.nil_eq).symm
    subst hsched
    have hr2 : r = ⟨st0, [], 0, none⟩ := by
      rw [hr]
      split
      · rfl
      · rfl
    refine ⟨by simp, fun _ => ⟨?_, ?_, ?_⟩⟩
    · rw [hr2]
    · rw [hr2, hst0]
      split
      · rfl
      · rfl
    · intro htr
      rw [hr2, hst0, htr]
      simp

/-- C8: with parallelism degree 1, `run_questions` runs the sequential loop:
`get_answer` is called once per question, in input order, and when every call
succeeds the records land in the answer file appended in exactly the input
order (one record per question, same order of question ids). -/
theorem sequential_order (env : Env) (questions sched : List Question) (nCh : Nat)
    (fT : Option ℚ) (rPr noise resume retryF : Bool) (st st0 : St)
    (hst0 : st0 = (if (rPr && !resume && !retryF) = true
        then (⟨st.ansFile, [], st.rk, st.ik⟩ : St) else st))
    (herr : (seqLoop env nCh fT rPr noise questions st0).err = none) :
    (runQuestions env 1 questions sched nCh fT rPr noise resume retryF st).builderCalls
        = (seqLoop env nCh fT rPr noise questions st0).calls
    ∧ (seqLoop env nCh fT rPr noise questions st0).calls = questions.length
    ∧ ∃ nr : List AnswerRecord,
        (seqLoop env nCh fT rPr noise questions st0).st.ansFile = st.ansFile ++ nr
        ∧ nr.map AnswerRecord.question_id = questions.map Question.question_id := by
  subst hst0
  obtain ⟨hcalls, nr, hnr, hmap⟩ := seqLoop_ok env nCh fT rPr noise questions _ herr
  refine ⟨?_, hcalls, nr, ?_, hmap⟩
  · simp only [runQuestions, apply_ite ROut.builderCalls, ite_self]
    rfl
  · rw [hnr]
    simp only [apply_ite St.ansFile, ite_self]

/-- C9 (counterexample): `str.replace` replaces EVERY occurrence of ".jsonl",
not just a trailing suffix — on `"a.jsonl.jsonl"` the computed path differs
from the suffix replacement — and the modification log is not append-only: a
`run_questions` call with `randomize_prompt=True` and neither resume flag set
truncates it, removing the previously written record `old9`. -/
theorem mod_log_cex :
    questionsFileL ("a.jsonl.jsonl".toList) ≠ "a.jsonl".toList ++ "_QUESTIONS.jsonlx".toList
    ∧ (runQuestions envStub 1 [qNine] [qNine] 1 none true false false false stNine).st.modFile.map
        ModRecord.question_id = ["q9"]
    ∧ stNine.modFile.map ModRecord.question_id = ["old9"] := by
  refine ⟨by decide, rfl, rfl⟩

/-- C9 (amended): the modification-log path is the answer-file path with every
occurrence of ".jsonl" replaced by "_QUESTIONS.jsonlx" — equal to the suffix
replacement whenever ".jsonl" occurs only as the trailing suffix; `get_answer`
only ever appends to the log (at most one record), and `run_questions`
preserves previously written log lines except when `randomize_prompt` is set
with neither resume flag, when it truncates the log at startup. -/
theorem mod_log_path_and_appends :
    (∀ s : List Char,
        (∀ i, i < s.length → headMatch jsonlChars (List.drop i (s ++ jsonlChars)) = false) →
        questionsFileL (s ++ jsonlChars) = s ++ qxChars)
    ∧ (∀ (env : Env) (q : Question) (n : Nat) (fT : Option ℚ) (rPr noise : Bool) (st : St),
        ∃ tl, (getAnswer env q n fT rPr noise st).st.modFile = st.modFile ++ tl ∧ tl.length ≤ 1)
    ∧ (∀ (env : Env) (parallel : Nat) (questions sched : List Question) (nCh : Nat)
        (fT : Option ℚ) (rPr noise resume retryF : Bool) (st : St),
        (rPr && !resume && !retryF) = false →
        ∃ tl, (runQuestions env parallel questions sched nCh fT rPr noise resume
            retryF st).st.modFile = st.modFile ++ tl) := by
  refine ⟨?_, fun env q n fT rPr noise st => getAnswer_modFile_append env q n fT rPr noise st, ?_⟩
  · intro s h
    exact pyReplace_single_suffix jsonlChars qxChars (by decide) s h
  · intro env parallel questions sched nCh fT rPr noise resume retryF st htr
    simp only [runQuestions]
    rw [htr, if_neg Bool.false_ne_true]
    by_cases hp : ((parallel == 1) = true)
    · rw [if_pos hp]
      obtain ⟨tl, htl⟩ := seqLoop_modFile env nCh fT rPr noise questions st
      refine ⟨tl, ?_⟩
      split
      · exact htl
      · exact htl
    · rw [if_neg hp]
      obtain ⟨tl, htl⟩ := parLoop_modFile env nCh fT rPr noise sched st
      refine ⟨tl, ?_⟩
      split
      · exact htl
      · exact htl

/-! ## Witnesses -/

/-- Witness for the amended C1 at a concrete run: `qAb` with `add_noise=True`
appends exactly one modification record. -/
theorem mod_record_emission_w :
    (getAnswer envStub qAb 1 none false true stE).st.modFile.length ≤ stE.modFile.length + 1
    ∧ (getAnswer envStub qAb 1 none false true stE).st.modFile.length
        = stE.modFile.length + (if (false || true) = true then 1 else 0) :=
  ⟨(mod_record_emission envStub qAb 1 none false true stE).1,
   (mod_record_emission envStub qAb 1 none false true stE).2.2 rfl⟩

/-- Witness for C3: the end-to-end stub scenario — question `q1` with turns
`["2+2?"]`, one choice, an invoker answering `("4", 1)` — yields choices
`[(0, ["4"])]` and one output token. -/
theorem answer_record_shape_w :
    (∃ ans, (getAnswer envStub qOne 1 none false false stE).st.ansFile = stE.ansFile ++ [ans]
      ∧ ans.question_id = qOne.question_id
      ∧ ans.choices.length = 1
      ∧ ans.choices.map Choice.index = List.range 1
      ∧ (∀ c ∈ ans.choices, c.turns.length = qOne.turns.length)
      ∧ ans.total_output_tokens
          = ((getAnswer envStub qOne 1 none false false stE).trace.map InvCall.tok).sum)
    ∧ (getAnswer envStub qOne 1 none false false stE).st.ansFile.map
        (fun a => (a.choices.map (fun c => (c.index, c.turns)), a.total_output_tokens))
      = [([(0, ["4"])], 1)] :=
  ⟨answer_record_shape envStub qOne 1 none false false stE (by decide) rfl, rfl⟩

/-- Witness for C4 at the stub environment. -/
theorem random_header_w :
    ∃ c1 c2 c3 c4, mkPfx envStub.o stE.rk
        = "Hello " ++ String.mk [c1, c2, c3, c4] ++ ", " ++ envStub.o.dt (stE.rk + 4) ++ "\n\n"
      ∧ c1 ∈ hdrLetters ∧ c2 ∈ hdrDigits ∧ c3 ∈ hdrLetters ∧ c4 ∈ hdrDigits :=
  (random_header envStub qOne 1 none stE).1

/-- Witness for C5: a digits-only string passes through the noise pass
unchanged. -/
theorem noise_mechanism_w :
    noiseChars envStub.o "123".toList 0 = ("123".toList, 0) :=
  (noise_mechanism envStub qNum 1 none false stE).2.2.1 "123".toList 0 (by decide)

/-- Witness for C6 at a concrete failing invoker. -/
theorem no_answer_on_invoker_failure_w :
    (getAnswer envFail qOne 1 none false false stE).st.ansFile = stE.ansFile
    ∧ (getAnswer envFail qOne 1 none false false stE).st.modFile = stE.modFile :=
  no_answer_on_invoker_failure envFail qOne 1 none false false stE rfl

/-- Witness for the amended C7 at a one-question run. -/
theorem dedup_pass_w :
    (runQuestions envStub 1 [qOne] [qOne] 1 none false false false false stE).reorgCalls
      = (if ([qOne] : List Question) = [] then 0 else 1) :=
  (dedup_pass envStub 1 [qOne] [qOne] 1 none false false false false stE
    (List.Perm.refl _) rfl).1

/-- Witness for C8 at a two-question run. -/
theorem sequential_order_w :
    (runQuestions envStub 1 [qOne, qNine] [] 1 none false false false false stE).builderCalls
        = (seqLoop envStub 1 none false false [qOne, qNine] stE).calls
    ∧ (seqLoop envStub 1 none false false [qOne, qNine] stE).calls
        = ([qOne, qNine] : List Question).length
    ∧ ∃ nr : List AnswerRecord,
        (seqLoop envStub 1 none false false [qOne, qNine] stE).st.ansFile = stE.ansFile ++ nr
        ∧ nr.map AnswerRecord.question_id = [qOne, qNine].map Question.question_id :=
  sequential_order envStub [qOne, qNine] [] 1 none false false false false stE stE rfl rfl

/-- Witness for the amended C9: on a name with a single trailing ".jsonl" the
computed path is the suffix replacement. -/
theorem mod_log_path_w :
    questionsFileL ("model".toList ++ jsonlChars) = "model".toList ++ qxChars :=
  mod_log_path_and_appends.1 "model".toList (by decide)

/-- Witness for C10 at a two-choice noisy run. -/
theorem mod_record_last_choice_w :
    (getAnswer envStub qAb 2 none false true stE).st.modFile.map ModRecord.modified_turns
      = stE.modFile.map ModRecord.modified_turns
        ++ [(finalChoiceT envStub.o (resolveTemp envStub qAb none) envStub.maxTokens false true
            (if false then mkPfx envStub.o stE.rk else "") qAb envStub.template 0 1
            (if false then stE.rk + 5 else stE.rk) stE.ik).modTurns] :=
  mod_record_last_choice envStub qAb 1 none false true stE rfl rfl

end LiveBench
